import Mathlib

/-!
Shallow embedding of `src/hashmap.c` (janneku/hashmap), an intrusive
open-chaining hash table with split-on-grow and fold-on-shrink resizing.

Modelling choices:
* A bucket chain (`struct hash_node *` linked through `next`) is a
  `List hash_node`; the `next` pointer is the list structure.
* `hash_node` carries, besides the cached `hash` field of the C struct,
  the enclosing caller record: `key` is the record field consulted by the
  caller comparison function, and `id` distinguishes physically distinct
  records that hold equal keys.
* The bucket array is a `List (List hash_node)` of length `len`.
* `size_t` values become `Nat`; the C code only masks hashes with
  `len - 1` and `len` (powers of two), which `Nat.land` models exactly.
* `realloc` and its possible failure are modelled by an explicit
  `allocOk : Bool` argument on the operations that may reallocate.
* The caller-supplied function pointers `hash` and `cmp` are function
  fields of the `hashmap` structure, as in the C struct.
-/

/-- One chain element together with its enclosing caller record. -/
structure hash_node where
  id : Nat
  key : Nat
  hash : Nat
deriving DecidableEq

/-- The `struct hashmap`: bucket array, capacity, element count and the
two caller-supplied functions. -/
@[ext] structure hashmap where
  table : List (List hash_node)
  len : Nat
  count : Nat
  hash : Nat → Nat
  cmp : hash_node → Nat → Bool

/-- `MIN_SLOTS` from hashmap.c. -/
def MIN_SLOTS : Nat := 16

/-- The chain stored in slot `i` of the bucket array (empty when the
index is out of range; the C code never reads out of range). -/
def bucket (map : hashmap) (i : Nat) : List hash_node :=
  map.table.getD i []

/-- The loop body of `hashmap_grow`: walk a chain and push every node
onto one of two fresh chains `a` (bit `len` of the cached hash clear)
and `b` (bit set), exactly as the C loop does, so each output chain ends
up reversed relative to the walk order. -/
def splitChain (len : Nat) :
    List hash_node → List hash_node → List hash_node →
    List hash_node × List hash_node
  | [], a, b => (a, b)
  | node :: rest, a, b =>
    if (node.hash &&& len) != 0 then splitChain len rest a (node :: b)
    else splitChain len rest (node :: a) b

/-- `hashmap_grow`: on reallocation failure return `-1` with the map
untouched; otherwise split every chain of the lower half by bit `len`
of the cached hash, writing slots `i` and `i + len`, and double `len`. -/
def hashmap_grow (allocOk : Bool) (map : hashmap) : Int × hashmap :=
  if allocOk then
    let newtable :=
      (List.range map.len).map (fun i => (splitChain map.len (bucket map i) [] []).1) ++
      (List.range map.len).map (fun i => (splitChain map.len (bucket map i) [] []).2)
    (0, { map with table := newtable, len := map.len * 2 })
  else
    (-1, map)

/-- `hashmap_shrink`: halve `len` first, fold chain `i + len` onto the
tail of chain `i` for every `i` below the new `len`, then try to release
memory.  A failed release changes no logical state, only the return
value, since the upper half of the retained array is never read again. -/
def hashmap_shrink (allocOk : Bool) (map : hashmap) : Int × hashmap :=
  let len2 := map.len / 2
  let folded := (List.range len2).map (fun i => bucket map i ++ bucket map (i + len2))
  ((if allocOk then 0 else -1), { map with table := folded, len := len2 })

/-- `hashmap_init`: a `MIN_SLOTS` array of empty chains.  The C function
returns `void` and does not check the `calloc` result, so no failure is
reported; the embedding models the successful allocation. -/
def hashmap_init (hash : Nat → Nat) (cmp : hash_node → Nat → Bool) : hashmap :=
  { table := List.replicate MIN_SLOTS [], len := MIN_SLOTS, count := 0,
    hash := hash, cmp := cmp }

/-- The chain walk of `hashmap_get`: first node accepted by `cmp`. -/
def findChain (cmp : hash_node → Nat → Bool) (key : Nat) :
    List hash_node → Option hash_node
  | [] => none
  | node :: rest => if cmp node key then some node else findChain cmp key rest

/-- `hashmap_get`: walk the chain of slot `hash(key) & (len - 1)`. -/
def hashmap_get (map : hashmap) (key : Nat) : Option hash_node :=
  findChain map.cmp key (bucket map (map.hash key &&& (map.len - 1)))

/-- `hashmap_insert`: cache the hash on the node, push the node on the
front of its chain, bump `count`, and grow when `count > len * 3`.  The
C function ignores the result of `hashmap_grow` and always returns 0. -/
def hashmap_insert (allocOk : Bool) (map : hashmap) (node : hash_node)
    (key : Nat) : Int × hashmap :=
  let h := map.hash key
  let slot := h &&& (map.len - 1)
  let map1 : hashmap :=
    { map with table := map.table.set slot ({ node with hash := h } :: bucket map slot),
               count := map.count + 1 }
  let map2 := if map1.count > map1.len * 3 then (hashmap_grow allocOk map1).2 else map1
  (0, map2)

/-- The chain walk of `hashmap_remove`: unlink the first node accepted
by `cmp`, returning it and the remaining chain, or `none`. -/
def removeChain (cmp : hash_node → Nat → Bool) (key : Nat) :
    List hash_node → Option (hash_node × List hash_node)
  | [] => none
  | node :: rest =>
    if cmp node key then some (node, rest)
    else
      match removeChain cmp key rest with
      | none => none
      | some (found, rest2) => some (found, node :: rest2)

/-- `hashmap_remove`: unlink the first match in the chain of the key,
decrement `count`, shrink when `count < len / 4 && len > MIN_SLOTS`,
and hand the node back.  An absent key changes nothing.  The C function
ignores the result of `hashmap_shrink`. -/
def hashmap_remove (allocOk : Bool) (map : hashmap) (key : Nat) :
    Option hash_node × hashmap :=
  let slot := map.hash key &&& (map.len - 1)
  match removeChain map.cmp key (bucket map slot) with
  | none => (none, map)
  | some (node, rest) =>
    let map1 : hashmap := { map with table := map.table.set slot rest,
                                     count := map.count - 1 }
    let map2 :=
      if map1.count < map1.len / 4 ∧ map1.len > MIN_SLOTS
      then (hashmap_shrink allocOk map1).2 else map1
    (some node, map2)

/-- All nodes stored in the table, in bucket order. -/
def nodes (map : hashmap) : List hash_node :=
  map.table.flatten

/-- The comparison function of the test harness (`cmp_test`): the key
stored in the enclosing record equals the probed key. -/
def keyEq : hash_node → Nat → Bool := fun node k => node.key == k

/-- The hash function of the test harness (`hash_test`). -/
def idHash : Nat → Nat := fun k => k

/-- A sequence of `hashmap_insert` calls, each item giving the outcome
of a possible reallocation, the node and the key. -/
def insertSeq (map : hashmap) : List (Bool × hash_node × Nat) → hashmap
  | [] => map
  | x :: rest => insertSeq (hashmap_insert x.1 map x.2.1 x.2.2).2 rest

/-- The node as stored by `hashmap_insert`: the cached hash is set. -/
def stored (hash : Nat → Nat) (x : Bool × hash_node × Nat) : hash_node :=
  { x.2.1 with hash := hash x.2.2 }

/-- Well-formedness: the bucket array has length `len`, `len` is a power
of two of at least `MIN_SLOTS`, and every node hangs in the slot selected
by its cached hash. -/
structure WF (map : hashmap) : Prop where
  table_len : map.table.length = map.len
  len_pow : ∃ j, 4 ≤ j ∧ map.len = 2 ^ j
  placed : ∀ i, ∀ n ∈ bucket map i, n.hash &&& (map.len - 1) = i

/-- A single operation of the public mutating surface. -/
inductive Op where
  | ins (allocOk : Bool) (node : hash_node) (key : Nat)
  | rem (allocOk : Bool) (key : Nat)

/-- State reached after one operation. -/
def applyOp (op : Op) (map : hashmap) : hashmap :=
  match op with
  | .ins a node key => (hashmap_insert a map node key).2
  | .rem a key => (hashmap_remove a map key).2

theorem getD_set_self {α : Type} (l : List α) (i : Nat) (x d : α)
    (h : i < l.length) : (l.set i x).getD i d = x := by
  simp [List.getD_eq_getElem?_getD, List.getElem?_set_self h]

theorem getD_set_ne {α : Type} {i j : Nat} (l : List α) (x d : α)
    (h : i ≠ j) : (l.set i x).getD j d = l.getD j d := by
  simp [List.getD_eq_getElem?_getD, List.getElem?_set_ne h]

theorem set_getD_self {α : Type} (l : List α) (i : Nat) (d : α) :
    l.set i (l.getD i d) = l := by
  induction l generalizing i with
  | nil => rfl
  | cons c t ih =>
    cases i with
    | zero => rfl
    | succ n =>
      have : (c :: t).set (n + 1) ((c :: t).getD (n + 1) d) = c :: t.set n (t.getD n d) := rfl
      rw [this, ih]

theorem flatten_set_cons_perm {α : Type} (l : List (List α)) (i : Nat) (x : α)
    (h : i < l.length) :
    (l.set i (x :: l.getD i [])).flatten.Perm (x :: l.flatten) := by
  induction l generalizing i with
  | nil => simp at h
  | cons c t ih =>
    cases i with
    | zero => simp
    | succ n =>
      have h2 : n < t.length := by simpa using h
      have step : ((c :: t).set (n + 1) (x :: (c :: t).getD (n + 1) [])).flatten
          = c ++ (t.set n (x :: t.getD n [])).flatten := by rfl
      rw [step]
      exact ((ih n h2).append_left c).trans List.perm_middle

theorem cons_flatten_set_perm {α : Type} (l : List (List α)) (i : Nat) (x : α)
    (rest : List α) (h : i < l.length)
    (hp : (x :: rest).Perm (l.getD i [])) :
    (x :: (l.set i rest).flatten).Perm l.flatten := by
  induction l generalizing i with
  | nil => simp at h
  | cons c t ih =>
    cases i with
    | zero =>
      have hg : (c :: t).getD 0 [] = c := rfl
      rw [hg] at hp
      simpa using hp.append_right t.flatten
    | succ n =>
      have h2 : n < t.length := by simpa using h
      have hp2 : (x :: rest).Perm (t.getD n []) := hp
      have step : ((c :: t).set (n + 1) rest).flatten
          = c ++ (t.set n rest).flatten := rfl
      rw [step]
      exact (@List.perm_middle _ x c _).symm.trans ((ih n h2 hp2).append_left c)

theorem flatten_map_append_perm {α : Type} (l : List (List α))
    (g1 g2 : List α → List α) (hg : ∀ c ∈ l, (g1 c ++ g2 c).Perm c) :
    ((l.map g1).flatten ++ (l.map g2).flatten).Perm l.flatten := by
  induction l with
  | nil => simp
  | cons c t ih =>
    have ih2 := ih (fun x hx => hg x (List.mem_cons_of_mem c hx))
    have hc := hg c (List.mem_cons_self c t)
    simp only [List.map_cons, List.flatten_cons]
    have e1 : (g1 c ++ (t.map g1).flatten) ++ (g2 c ++ (t.map g2).flatten)
        = g1 c ++ ((t.map g1).flatten ++ (g2 c ++ (t.map g2).flatten)) := by
      simp [List.append_assoc]
    have p1 : ((t.map g1).flatten ++ (g2 c ++ (t.map g2).flatten)).Perm
        (g2 c ++ ((t.map g1).flatten ++ (t.map g2).flatten)) := by
      simp only [← List.append_assoc]
      exact (List.perm_append_comm).append_right _
    have p2 : (g1 c ++ (g2 c ++ ((t.map g1).flatten ++ (t.map g2).flatten))).Perm
        (c ++ t.flatten) := by
      rw [← List.append_assoc]
      exact hc.append ih2
    rw [e1]
    exact (p1.append_left (g1 c)).trans p2

theorem range_map_getD {α β : Type} (l : List α) (d : α) (f : α → β) :
    (List.range l.length).map (fun i => f (l.getD i d)) = l.map f := by
  induction l with
  | nil => rfl
  | cons c t ih =>
    rw [List.length_cons, List.range_succ_eq_map, List.map_cons, List.map_map]
    rw [List.map_cons]
    have tail_eq : List.map ((fun i => f ((c :: t).getD i d)) ∘ Nat.succ) (List.range t.length)
        = (List.range t.length).map (fun i => f (t.getD i d)) :=
      List.map_congr_left (fun a _ => rfl)
    rw [tail_eq, ih, List.getD_cons_zero]

theorem flatten_fold_perm {α : Type} (l1 l2 : List (List α))
    (hlen : l2.length = l1.length) :
    ((List.range l1.length).map
        (fun i => l1.getD i [] ++ l2.getD i [])).flatten.Perm
      (l1.flatten ++ l2.flatten) := by
  induction l1 generalizing l2 with
  | nil =>
    have h2 : l2 = [] := List.eq_nil_of_length_eq_zero hlen
    subst h2
    simp
  | cons c1 t1 ih =>
    match l2, hlen with
    | c2 :: t2, hlen =>
      have hlen2 : t2.length = t1.length := by simpa using hlen
      rw [List.length_cons, List.range_succ_eq_map, List.map_cons, List.map_map]
      have hmap : (List.map ((fun i => (c1 :: t1).getD i [] ++ (c2 :: t2).getD i []) ∘ Nat.succ)
          (List.range t1.length))
          = (List.range t1.length).map (fun i => t1.getD i [] ++ t2.getD i []) := by
        apply List.map_congr_left
        intro a _
        rfl
      rw [hmap, List.flatten_cons]
      have e0 : (c1 :: t1).getD 0 [] ++ (c2 :: t2).getD 0 [] = c1 ++ c2 := rfl
      rw [e0]
      have ih2 := ih t2 hlen2
      have p1 : (c1 ++ c2 ++ ((List.range t1.length).map
          (fun i => t1.getD i [] ++ t2.getD i [])).flatten).Perm
          (c1 ++ c2 ++ (t1.flatten ++ t2.flatten)) := ih2.append_left _
      refine p1.trans ?_
      have p2 : (c2 ++ (t1.flatten ++ t2.flatten)).Perm (t1.flatten ++ (c2 ++ t2.flatten)) := by
        simp only [← List.append_assoc]
        exact (List.perm_append_comm).append_right _
      have p3 : (c1 ++ (c2 ++ (t1.flatten ++ t2.flatten))).Perm
          (c1 ++ (t1.flatten ++ (c2 ++ t2.flatten))) := p2.append_left c1
      simpa [List.append_assoc] using p3

/-! ### Chain walk helpers -/

theorem findChain_eq_none {cmp : hash_node → Nat → Bool} {key : Nat}
    {chain : List hash_node} (h : ∀ n ∈ chain, cmp n key = false) :
    findChain cmp key chain = none := by
  induction chain with
  | nil => rfl
  | cons c t ih =>
    have hc := h c (List.mem_cons_self c t)
    simp [findChain, hc]
    exact ih (fun n hn => h n (List.mem_cons_of_mem c hn))

theorem findChain_some_mem {cmp : hash_node → Nat → Bool} {key : Nat}
    {chain : List hash_node} {n : hash_node}
    (h : findChain cmp key chain = some n) : n ∈ chain ∧ cmp n key = true := by
  induction chain with
  | nil => simp [findChain] at h
  | cons c t ih =>
    by_cases hc : cmp c key
    · simp [findChain, hc] at h
      subst h
      exact ⟨List.mem_cons_self c t, hc⟩
    · simp [findChain, hc] at h
      have := ih h
      exact ⟨List.mem_cons_of_mem c this.1, this.2⟩

theorem findChain_isSome {cmp : hash_node → Nat → Bool} {key : Nat}
    {chain : List hash_node} {n : hash_node}
    (hn : n ∈ chain) (hc : cmp n key = true) :
    ∃ m, findChain cmp key chain = some m := by
  induction chain with
  | nil => simp at hn
  | cons c t ih =>
    by_cases h0 : cmp c key
    · exact ⟨c, by simp [findChain, h0]⟩
    · rcases List.mem_cons.mp hn with h1 | h1
      · subst h1; rw [hc] at h0; simp at h0
      · rcases ih h1 with ⟨m, hm⟩
        exact ⟨m, by simp [findChain, h0, hm]⟩

theorem removeChain_eq_none {cmp : hash_node → Nat → Bool} {key : Nat}
    {chain : List hash_node} (h : ∀ n ∈ chain, cmp n key = false) :
    removeChain cmp key chain = none := by
  induction chain with
  | nil => rfl
  | cons c t ih =>
    have hc := h c (List.mem_cons_self c t)
    have ht := ih (fun n hn => h n (List.mem_cons_of_mem c hn))
    simp [removeChain, hc, ht]

theorem removeChain_isSome {cmp : hash_node → Nat → Bool} {key : Nat}
    {chain : List hash_node} {n : hash_node}
    (hn : n ∈ chain) (hc : cmp n key = true) :
    ∃ p, removeChain cmp key chain = some p := by
  induction chain with
  | nil => simp at hn
  | cons c t ih =>
    by_cases h0 : cmp c key
    · exact ⟨(c, t), by simp [removeChain, h0]⟩
    · rcases List.mem_cons.mp hn with h1 | h1
      · subst h1; rw [hc] at h0; simp at h0
      · rcases ih h1 with ⟨⟨m, rest⟩, hm⟩
        exact ⟨(m, c :: rest), by simp [removeChain, h0, hm]⟩

theorem removeChain_some {cmp : hash_node → Nat → Bool} {key : Nat}
    {chain rest : List hash_node} {found : hash_node}
    (h : removeChain cmp key chain = some (found, rest)) :
    cmp found key = true ∧ found ∈ chain ∧ (found :: rest).Perm chain := by
  induction chain generalizing rest with
  | nil => simp [removeChain] at h
  | cons c t ih =>
    by_cases hc : cmp c key
    · simp [removeChain, hc] at h
      obtain ⟨h1, h2⟩ := h
      subst h1; subst h2
      exact ⟨hc, List.mem_cons_self c t, List.Perm.refl _⟩
    · simp only [removeChain, hc, Bool.false_eq_true, if_false] at h
      match hrec : removeChain cmp key t with
      | none => rw [hrec] at h; simp at h
      | some (m, rest2) =>
        rw [hrec] at h
        obtain ⟨hm, hr⟩ := Prod.mk.inj (Option.some.inj h)
        subst hm
        subst hr
        obtain ⟨hm1, hm2, hm3⟩ := ih hrec
        refine ⟨hm1, List.mem_cons_of_mem c hm2, ?_⟩
        exact (List.Perm.swap c m rest2).trans (hm3.cons c)

/-! ### Bit arithmetic for power-of-two capacities -/

theorem slot_lt {h j : Nat} : h &&& (2 ^ j - 1) < 2 ^ j := by
  rw [Nat.and_pow_two_sub_one_eq_mod]
  exact Nat.mod_lt _ (Nat.two_pow_pos j)

theorem and_two_pow_div_mod {h j : Nat} :
    h &&& 2 ^ j = 2 ^ j * (h / 2 ^ j % 2) := by
  rw [Nat.and_two_pow]
  rcases Nat.mod_two_eq_zero_or_one (h / 2 ^ j) with h0 | h0
  · have hb : h.testBit j = false := by
      rw [Nat.testBit_to_div_mod]
      simp [h0]
    rw [hb, h0]
    simp
  · have hb : h.testBit j = true := by
      rw [Nat.testBit_to_div_mod]
      simp [h0]
    rw [hb, h0]
    simp [Nat.mul_comm]

theorem and_double_clear {h j : Nat} (hc : h &&& 2 ^ j = 0) :
    h &&& (2 ^ (j + 1) - 1) = h &&& (2 ^ j - 1) := by
  have hd : h / 2 ^ j % 2 = 0 := by
    have := @and_two_pow_div_mod h j
    rw [hc] at this
    have hp := Nat.two_pow_pos j
    rcases Nat.mod_two_eq_zero_or_one (h / 2 ^ j) with h0 | h0
    · exact h0
    · rw [h0, Nat.mul_one] at this
      omega
  rw [Nat.and_pow_two_sub_one_eq_mod, Nat.and_pow_two_sub_one_eq_mod,
    pow_succ, Nat.mod_mul, hd]
  simp

theorem and_double_set {h j : Nat} (hc : h &&& 2 ^ j ≠ 0) :
    h &&& (2 ^ (j + 1) - 1) = (h &&& (2 ^ j - 1)) + 2 ^ j := by
  have hd : h / 2 ^ j % 2 = 1 := by
    have := @and_two_pow_div_mod h j
    rcases Nat.mod_two_eq_zero_or_one (h / 2 ^ j) with h0 | h0
    · rw [h0, Nat.mul_zero] at this
      exact absurd this hc
    · exact h0
  rw [Nat.and_pow_two_sub_one_eq_mod, Nat.and_pow_two_sub_one_eq_mod,
    pow_succ, Nat.mod_mul, hd]
  omega

theorem and_halve {h j i : Nat} (hij : h &&& (2 ^ (j + 1) - 1) = i) :
    h &&& (2 ^ j - 1) = i % 2 ^ j := by
  rw [Nat.and_pow_two_sub_one_eq_mod] at hij
  rw [Nat.and_pow_two_sub_one_eq_mod, ← hij]
  exact (Nat.mod_mod_of_dvd h (pow_dvd_pow 2 (Nat.le_succ j))).symm

/-! ### The splitting loop of hashmap_grow -/

theorem splitChain_eq (len : Nat) (chain a b : List hash_node) :
    splitChain len chain a b =
      ((chain.filter (fun n => !((n.hash &&& len) != 0))).reverse ++ a,
       (chain.filter (fun n => (n.hash &&& len) != 0)).reverse ++ b) := by
  induction chain generalizing a b with
  | nil => simp [splitChain]
  | cons node rest ih =>
    by_cases hc : ((node.hash &&& len) != 0) = true
    · rw [splitChain, if_pos hc, ih]
      simp [List.filter_cons, hc, List.append_assoc]
    · rw [splitChain, if_neg hc, ih]
      have hc2 : ((node.hash &&& len) != 0) = false := by
        revert hc
        cases ((node.hash &&& len) != 0) <;> simp
      simp [List.filter_cons, hc2, List.append_assoc]

theorem splitChain_append_perm (len : Nat) (chain : List hash_node) :
    ((splitChain len chain [] []).1 ++ (splitChain len chain [] []).2).Perm chain := by
  rw [splitChain_eq]
  simp only [List.append_nil]
  refine ((List.reverse_perm _).append (List.reverse_perm _)).trans ?_
  exact (List.perm_append_comm).trans (List.filter_append_perm _ chain)

/-! ### State equations for hashmap_grow -/

theorem grow_len (map : hashmap) :
    (hashmap_grow true map).2.len = map.len * 2 := rfl

theorem grow_fail (map : hashmap) :
    hashmap_grow false map = (-1, map) := rfl

theorem grow_fields (allocOk : Bool) (map : hashmap) :
    (hashmap_grow allocOk map).2.hash = map.hash ∧
    (hashmap_grow allocOk map).2.cmp = map.cmp ∧
    (hashmap_grow allocOk map).2.count = map.count := by
  cases allocOk <;> exact ⟨rfl, rfl, rfl⟩

theorem grow_table_len (map : hashmap) :
    (hashmap_grow true map).2.table.length = map.len * 2 := by
  show ((List.range map.len).map _ ++ (List.range map.len).map _).length = map.len * 2
  rw [List.length_append, List.length_map, List.length_map, List.length_range]
  omega

theorem grow_bucket_low (map : hashmap) {i : Nat} (hi : i < map.len) :
    bucket (hashmap_grow true map).2 i =
      ((bucket map i).filter (fun n => !((n.hash &&& map.len) != 0))).reverse := by
  show (((List.range map.len).map (fun i => (splitChain map.len (bucket map i) [] []).1) ++
      (List.range map.len).map (fun i => (splitChain map.len (bucket map i) [] []).2)).getD i [])
      = _
  rw [List.getD_eq_getElem?_getD,
    List.getElem?_append_left (by rw [List.length_map, List.length_range]; exact hi),
    List.getElem?_map, List.getElem?_range hi]
  simp only [Option.map_some', Option.getD_some]
  rw [splitChain_eq]
  simp

theorem grow_bucket_high (map : hashmap) {i : Nat} (hi : i < map.len) :
    bucket (hashmap_grow true map).2 (i + map.len) =
      ((bucket map i).filter (fun n => (n.hash &&& map.len) != 0)).reverse := by
  show (((List.range map.len).map (fun i => (splitChain map.len (bucket map i) [] []).1) ++
      (List.range map.len).map (fun i => (splitChain map.len (bucket map i) [] []).2)).getD
      (i + map.len) [])
      = _
  rw [List.getD_eq_getElem?_getD,
    List.getElem?_append_right (by rw [List.length_map, List.length_range]; omega)]
  rw [List.length_map, List.length_range]
  have he : i + map.len - map.len = i := by omega
  rw [he, List.getElem?_map, List.getElem?_range hi]
  simp only [Option.map_some', Option.getD_some]
  rw [splitChain_eq]
  simp

theorem grow_nodes_perm (map : hashmap) (allocOk : Bool)
    (hlen : map.table.length = map.len) :
    (nodes (hashmap_grow allocOk map).2).Perm (nodes map) := by
  cases allocOk
  · exact List.Perm.refl _
  · show (((List.range map.len).map (fun i => (splitChain map.len (bucket map i) [] []).1) ++
        (List.range map.len).map (fun i => (splitChain map.len (bucket map i) [] []).2)).flatten).Perm
        map.table.flatten
    rw [List.flatten_append]
    have e1 : (List.range map.len).map (fun i => (splitChain map.len (bucket map i) [] []).1)
        = map.table.map (fun c => (splitChain map.len c [] []).1) := by
      have h0 := range_map_getD map.table [] (fun c => (splitChain map.len c [] []).1)
      rw [hlen] at h0
      exact h0
    have e2 : (List.range map.len).map (fun i => (splitChain map.len (bucket map i) [] []).2)
        = map.table.map (fun c => (splitChain map.len c [] []).2) := by
      have h0 := range_map_getD map.table [] (fun c => (splitChain map.len c [] []).2)
      rw [hlen] at h0
      exact h0
    rw [e1, e2]
    exact flatten_map_append_perm map.table _ _
      (fun c _ => splitChain_append_perm map.len c)

theorem bucket_oob (map : hashmap) {i : Nat} (h : map.table.length ≤ i) :
    bucket map i = [] := by
  simp [bucket, List.getD_eq_getElem?_getD, List.getElem?_eq_none h]

theorem grow_WF (map : hashmap) (allocOk : Bool) (h : WF map) :
    WF (hashmap_grow allocOk map).2 := by
  cases allocOk
  · exact h
  · obtain ⟨j, hj, hlenj⟩ := h.len_pow
    refine ⟨?_, ⟨j + 1, by omega, ?_⟩, ?_⟩
    · rw [grow_table_len, grow_len]
    · rw [grow_len, hlenj, pow_succ]
    · intro i n hn
      rw [grow_len]
      by_cases hlow : i < map.len
      · rw [grow_bucket_low map hlow] at hn
        rw [List.mem_reverse, List.mem_filter] at hn
        obtain ⟨hmem, hbit⟩ := hn
        have hz : n.hash &&& map.len = 0 := by
          revert hbit
          simp
        have hplaced := h.placed i n hmem
        rw [hlenj] at hz hplaced ⊢
        rw [show 2 ^ j * 2 = 2 ^ (j + 1) by rw [pow_succ]]
        rw [and_double_clear hz, hplaced]
      · by_cases hhigh : i < map.len * 2
        · have he : i = (i - map.len) + map.len := by omega
          have hi2 : i - map.len < map.len := by omega
          rw [he, grow_bucket_high map hi2] at hn
          rw [List.mem_reverse, List.mem_filter] at hn
          obtain ⟨hmem, hbit⟩ := hn
          have hz : n.hash &&& map.len ≠ 0 := by
            revert hbit
            simp
          have hplaced := h.placed (i - map.len) n hmem
          rw [hlenj] at hz hplaced ⊢
          rw [show 2 ^ j * 2 = 2 ^ (j + 1) by rw [pow_succ]]
          rw [and_double_set hz, hplaced]
          omega
        · rw [bucket_oob] at hn
          · simp at hn
          · rw [grow_table_len]
            omega

/-! ### State equations for hashmap_shrink -/

theorem shrink_len (allocOk : Bool) (map : hashmap) :
    (hashmap_shrink allocOk map).2.len = map.len / 2 := by
  cases allocOk <;> rfl

theorem shrink_fields (allocOk : Bool) (map : hashmap) :
    (hashmap_shrink allocOk map).2.hash = map.hash ∧
    (hashmap_shrink allocOk map).2.cmp = map.cmp ∧
    (hashmap_shrink allocOk map).2.count = map.count := by
  cases allocOk <;> exact ⟨rfl, rfl, rfl⟩

theorem shrink_fail_code (map : hashmap) : (hashmap_shrink false map).1 = -1 := rfl

theorem shrink_state_eq (map : hashmap) :
    (hashmap_shrink false map).2 = (hashmap_shrink true map).2 := rfl

theorem shrink_table_len (allocOk : Bool) (map : hashmap) :
    (hashmap_shrink allocOk map).2.table.length = map.len / 2 := by
  cases allocOk <;>
    (show ((List.range (map.len / 2)).map _).length = map.len / 2
     rw [List.length_map, List.length_range])

theorem shrink_bucket (allocOk : Bool) (map : hashmap) {i : Nat}
    (hi : i < map.len / 2) :
    bucket (hashmap_shrink allocOk map).2 i =
      bucket map i ++ bucket map (i + map.len / 2) := by
  cases allocOk <;>
    (show (((List.range (map.len / 2)).map
        (fun i => bucket map i ++ bucket map (i + map.len / 2))).getD i []) = _
     rw [List.getD_eq_getElem?_getD, List.getElem?_map, List.getElem?_range hi]
     simp)

theorem shrink_nodes_perm (allocOk : Bool) (map : hashmap)
    (hlen : map.table.length = map.len) (heven : map.len = 2 * (map.len / 2)) :
    (nodes (hashmap_shrink allocOk map).2).Perm (nodes map) := by
  have hstate : nodes (hashmap_shrink allocOk map).2 =
      ((List.range (map.len / 2)).map
        (fun i => bucket map i ++ bucket map (i + map.len / 2))).flatten := by
    cases allocOk <;> rfl
  rw [hstate]
  set n := map.len / 2 with hn
  have htake : (map.table.take n).length = n := by
    rw [List.length_take, hlen]
    omega
  have hdroplen : (map.table.drop n).length = n := by
    rw [List.length_drop, hlen]
    omega
  have hcongr : (List.range n).map (fun i => bucket map i ++ bucket map (i + n))
      = (List.range (map.table.take n).length).map
          (fun i => (map.table.take n).getD i [] ++ (map.table.drop n).getD i []) := by
    rw [htake]
    apply List.map_congr_left
    intro a ha
    have halt : a < n := List.mem_range.mp ha
    have e1 : (map.table.take n).getD a [] = bucket map a := by
      rw [List.getD_eq_getElem?_getD, List.getElem?_take_of_lt halt]
      rw [bucket, List.getD_eq_getElem?_getD]
    have e2 : (map.table.drop n).getD a [] = bucket map (a + n) := by
      rw [List.getD_eq_getElem?_getD, List.getElem?_drop]
      rw [Nat.add_comm n a]
      rw [bucket, List.getD_eq_getElem?_getD]
    rw [e1, e2]
  rw [hcongr]
  refine (flatten_fold_perm (map.table.take n) (map.table.drop n)
    (by rw [htake, hdroplen])).trans ?_
  rw [← List.flatten_append, List.take_append_drop]
  exact List.Perm.refl _

theorem shrink_WF (map : hashmap) (allocOk : Bool) (h : WF map)
    (hgt : MIN_SLOTS < map.len) : WF (hashmap_shrink allocOk map).2 := by
  obtain ⟨j, hj, hlenj⟩ := h.len_pow
  have hj5 : 5 ≤ j := by
    by_contra hlt
    have hje : j = 4 := by omega
    rw [hje] at hlenj
    rw [hlenj] at hgt
    simp [MIN_SLOTS] at hgt
  obtain ⟨j2, hj2⟩ : ∃ j2, j = j2 + 1 := ⟨j - 1, by omega⟩
  have hhalf : map.len / 2 = 2 ^ j2 := by
    rw [hlenj, hj2, pow_succ, Nat.mul_div_cancel _ (by norm_num)]
  refine ⟨?_, ⟨j2, by omega, ?_⟩, ?_⟩
  · rw [shrink_table_len, shrink_len]
  · rw [shrink_len, hhalf]
  · intro i n hn
    rw [shrink_len]
    by_cases hlow : i < map.len / 2
    · rw [shrink_bucket allocOk map hlow, List.mem_append] at hn
      have hio : i % 2 ^ j2 = i := Nat.mod_eq_of_lt (by rw [← hhalf]; exact hlow)
      rcases hn with hn | hn
      · have hplaced := h.placed i n hn
        rw [hlenj, hj2] at hplaced
        rw [hhalf, and_halve hplaced, hio]
      · have hplaced := h.placed (i + map.len / 2) n hn
        rw [hhalf] at hplaced
        rw [hlenj, hj2] at hplaced
        rw [hhalf, and_halve hplaced, Nat.add_mod_right, hio]
    · rw [bucket_oob] at hn
      · simp at hn
      · rw [shrink_table_len]
        omega

/-! ### State equations for hashmap_insert -/

/-- The state right after the link step of `hashmap_insert` (node pushed
on the front of its chain, `count` bumped), before any growth. -/
def insertMid (map : hashmap) (node : hash_node) (key : Nat) : hashmap :=
  { map with
    table := map.table.set (map.hash key &&& (map.len - 1))
      ({ node with hash := map.hash key } :: bucket map (map.hash key &&& (map.len - 1))),
    count := map.count + 1 }

theorem insert_code (allocOk : Bool) (map : hashmap) (node : hash_node)
    (key : Nat) : (hashmap_insert allocOk map node key).1 = 0 := rfl

theorem insert_state (allocOk : Bool) (map : hashmap) (node : hash_node)
    (key : Nat) :
    (hashmap_insert allocOk map node key).2 =
      if map.count + 1 > map.len * 3
      then (hashmap_grow allocOk (insertMid map node key)).2
      else insertMid map node key := rfl

theorem insertMid_WF (map : hashmap) (node : hash_node) (key : Nat)
    (h : WF map) : WF (insertMid map node key) := by
  obtain ⟨j, hj, hlenj⟩ := h.len_pow
  have hslot : map.hash key &&& (map.len - 1) < map.len := by
    rw [hlenj]
    exact slot_lt
  refine ⟨by simp [insertMid, h.table_len], ⟨j, hj, hlenj⟩, ?_⟩
  intro i n hn
  by_cases hi : i = map.hash key &&& (map.len - 1)
  · subst hi
    have hb : bucket (insertMid map node key) (map.hash key &&& (map.len - 1)) =
        { node with hash := map.hash key } ::
          bucket map (map.hash key &&& (map.len - 1)) := by
      show (map.table.set _ _).getD _ [] = _
      exact getD_set_self _ _ _ _ (by rw [h.table_len]; exact hslot)
    rw [hb] at hn
    rcases List.mem_cons.mp hn with hn | hn
    · subst hn
      rfl
    · exact h.placed _ n hn
  · have hb : bucket (insertMid map node key) i = bucket map i := by
      show (map.table.set _ _).getD i [] = _
      exact getD_set_ne _ _ _ (fun he => hi he.symm)
    rw [hb] at hn
    exact h.placed i n hn

theorem insertMid_nodes_perm (map : hashmap) (node : hash_node) (key : Nat)
    (h : WF map) :
    (nodes (insertMid map node key)).Perm
      ({ node with hash := map.hash key } :: nodes map) := by
  obtain ⟨j, hj, hlenj⟩ := h.len_pow
  apply flatten_set_cons_perm
  rw [h.table_len, hlenj]
  exact slot_lt

theorem insertMid_table_len (map : hashmap) (node : hash_node) (key : Nat) :
    (insertMid map node key).table.length = map.table.length := by
  simp [insertMid]

theorem insert_WF (allocOk : Bool) (map : hashmap) (node : hash_node)
    (key : Nat) (h : WF map) : WF (hashmap_insert allocOk map node key).2 := by
  rw [insert_state]
  by_cases hc : map.count + 1 > map.len * 3
  · rw [if_pos hc]
    exact grow_WF _ _ (insertMid_WF map node key h)
  · rw [if_neg hc]
    exact insertMid_WF map node key h

theorem insert_nodes_perm (allocOk : Bool) (map : hashmap) (node : hash_node)
    (key : Nat) (h : WF map) :
    (nodes (hashmap_insert allocOk map node key).2).Perm
      ({ node with hash := map.hash key } :: nodes map) := by
  rw [insert_state]
  by_cases hc : map.count + 1 > map.len * 3
  · rw [if_pos hc]
    refine (grow_nodes_perm _ allocOk ?_).trans (insertMid_nodes_perm map node key h)
    rw [insertMid_table_len, (insertMid_WF map node key h).table_len.symm,
      insertMid_table_len]
  · rw [if_neg hc]
    exact insertMid_nodes_perm map node key h

theorem insert_count (allocOk : Bool) (map : hashmap) (node : hash_node)
    (key : Nat) :
    (hashmap_insert allocOk map node key).2.count = map.count + 1 := by
  rw [insert_state]
  by_cases hc : map.count + 1 > map.len * 3
  · rw [if_pos hc]
    exact (grow_fields allocOk _).2.2
  · rw [if_neg hc]
    rfl

theorem insert_hash_cmp (allocOk : Bool) (map : hashmap) (node : hash_node)
    (key : Nat) :
    (hashmap_insert allocOk map node key).2.hash = map.hash ∧
    (hashmap_insert allocOk map node key).2.cmp = map.cmp := by
  rw [insert_state]
  by_cases hc : map.count + 1 > map.len * 3
  · rw [if_pos hc]
    exact ⟨(grow_fields allocOk _).1, (grow_fields allocOk _).2.1⟩
  · rw [if_neg hc]
    exact ⟨rfl, rfl⟩

theorem insert_len_alloc (map : hashmap) (node : hash_node) (key : Nat) :
    (hashmap_insert true map node key).2.len =
      if map.count + 1 > map.len * 3 then map.len * 2 else map.len := by
  rw [insert_state]
  by_cases hc : map.count + 1 > map.len * 3
  · rw [if_pos hc, if_pos hc]
    rfl
  · rw [if_neg hc, if_neg hc]
    rfl

/-- The state right after the unlink step of `hashmap_remove` (chain of
the key replaced by `rest`, `count` decremented), before any shrink. -/
def removeMid (map : hashmap) (key : Nat) (rest : List hash_node) : hashmap :=
  { map with table := map.table.set (map.hash key &&& (map.len - 1)) rest,
             count := map.count - 1 }

theorem remove_state_none {allocOk : Bool} {map : hashmap} {key : Nat}
    (h : removeChain map.cmp key
        (bucket map (map.hash key &&& (map.len - 1))) = none) :
    hashmap_remove allocOk map key = (none, map) := by
  simp only [hashmap_remove]
  rw [h]

theorem remove_state_found {allocOk : Bool} {map : hashmap} {key : Nat}
    {node : hash_node} {rest : List hash_node}
    (h : removeChain map.cmp key
        (bucket map (map.hash key &&& (map.len - 1))) = some (node, rest)) :
    hashmap_remove allocOk map key =
      (some node,
       if map.count - 1 < map.len / 4 ∧ map.len > MIN_SLOTS
       then (hashmap_shrink allocOk (removeMid map key rest)).2
       else removeMid map key rest) := by
  simp only [hashmap_remove]
  rw [h]
  rfl

theorem removeMid_table_len (map : hashmap) (key : Nat)
    (rest : List hash_node) :
    (removeMid map key rest).table.length = map.table.length := by
  simp [removeMid]

theorem removeMid_WF (map : hashmap) (key : Nat) (rest : List hash_node)
    (h : WF map)
    (hsub : ∀ n ∈ rest, n ∈ bucket map (map.hash key &&& (map.len - 1))) :
    WF (removeMid map key rest) := by
  obtain ⟨j, hj, hlenj⟩ := h.len_pow
  have hslot : map.hash key &&& (map.len - 1) < map.len := by
    rw [hlenj]
    exact slot_lt
  refine ⟨by simp [removeMid, h.table_len], ⟨j, hj, hlenj⟩, ?_⟩
  intro i n hn
  by_cases hi : i = map.hash key &&& (map.len - 1)
  · subst hi
    have hb : bucket (removeMid map key rest) (map.hash key &&& (map.len - 1)) = rest := by
      show (map.table.set _ _).getD _ [] = _
      exact getD_set_self _ _ _ _ (by rw [h.table_len]; exact hslot)
    rw [hb] at hn
    exact h.placed _ n (hsub n hn)
  · have hb : bucket (removeMid map key rest) i = bucket map i := by
      show (map.table.set _ _).getD i [] = _
      exact getD_set_ne _ _ _ (fun he => hi he.symm)
    rw [hb] at hn
    exact h.placed i n hn

theorem remove_WF (allocOk : Bool) (map : hashmap) (key : Nat) (h : WF map) :
    WF (hashmap_remove allocOk map key).2 := by
  match hrc : removeChain map.cmp key
      (bucket map (map.hash key &&& (map.len - 1))) with
  | none =>
    rw [remove_state_none hrc]
    exact h
  | some (node, rest) =>
    rw [remove_state_found hrc]
    have hsub : ∀ n ∈ rest, n ∈ bucket map (map.hash key &&& (map.len - 1)) := by
      intro n hn
      have hperm := (removeChain_some hrc).2.2
      exact hperm.mem_iff.mp (List.mem_cons_of_mem node hn)
    have hmid := removeMid_WF map key rest h hsub
    by_cases hc : map.count - 1 < map.len / 4 ∧ map.len > MIN_SLOTS
    · rw [if_pos hc]
      exact shrink_WF _ allocOk hmid hc.2
    · rw [if_neg hc]
      exact hmid

theorem remove_found_perm {allocOk : Bool} {map : hashmap} {key : Nat}
    {node : hash_node} {rest : List hash_node} (h : WF map)
    (hrc : removeChain map.cmp key
        (bucket map (map.hash key &&& (map.len - 1))) = some (node, rest)) :
    (node :: nodes (hashmap_remove allocOk map key).2).Perm (nodes map) := by
  obtain ⟨j, hj, hlenj⟩ := h.len_pow
  have hslot : map.hash key &&& (map.len - 1) < map.table.length := by
    rw [h.table_len, hlenj]
    exact slot_lt
  have hperm := (removeChain_some hrc).2.2
  have hmid : (node :: nodes (removeMid map key rest)).Perm (nodes map) :=
    cons_flatten_set_perm map.table _ node rest hslot hperm
  rw [remove_state_found hrc]
  by_cases hc : map.count - 1 < map.len / 4 ∧ map.len > MIN_SLOTS
  · rw [if_pos hc]
    have heven : (removeMid map key rest).len = 2 * ((removeMid map key rest).len / 2) := by
      show map.len = 2 * (map.len / 2)
      rw [hlenj]
      have hj1 : (1:Nat) ≤ j := by omega
      obtain ⟨j2, hj2⟩ : ∃ j2, j = j2 + 1 := ⟨j - 1, by omega⟩
      rw [hj2, pow_succ, Nat.mul_comm (2 ^ j2) 2, Nat.mul_div_cancel_left _ (by norm_num)]
    have hshr := shrink_nodes_perm allocOk (removeMid map key rest)
      (by rw [removeMid_table_len, h.table_len]; rfl) heven
    exact (hshr.cons node).trans hmid
  · rw [if_neg hc]
    exact hmid

theorem remove_count_found {allocOk : Bool} {map : hashmap} {key : Nat}
    {node : hash_node} {rest : List hash_node}
    (hrc : removeChain map.cmp key
        (bucket map (map.hash key &&& (map.len - 1))) = some (node, rest)) :
    (hashmap_remove allocOk map key).2.count = map.count - 1 := by
  rw [remove_state_found hrc]
  by_cases hc : map.count - 1 < map.len / 4 ∧ map.len > MIN_SLOTS
  · rw [if_pos hc]
    exact (shrink_fields allocOk _).2.2
  · rw [if_neg hc]
    rfl

theorem remove_len_found {allocOk : Bool} {map : hashmap} {key : Nat}
    {node : hash_node} {rest : List hash_node}
    (hrc : removeChain map.cmp key
        (bucket map (map.hash key &&& (map.len - 1))) = some (node, rest)) :
    (hashmap_remove allocOk map key).2.len =
      if map.count - 1 < map.len / 4 ∧ map.len > MIN_SLOTS
      then map.len / 2 else map.len := by
  rw [remove_state_found hrc]
  by_cases hc : map.count - 1 < map.len / 4 ∧ map.len > MIN_SLOTS
  · rw [if_pos hc, if_pos hc, shrink_len]
    rfl
  · rw [if_neg hc, if_neg hc]
    rfl

theorem remove_hash_cmp (allocOk : Bool) (map : hashmap) (key : Nat) :
    (hashmap_remove allocOk map key).2.hash = map.hash ∧
    (hashmap_remove allocOk map key).2.cmp = map.cmp := by
  match hrc : removeChain map.cmp key
      (bucket map (map.hash key &&& (map.len - 1))) with
  | none =>
    rw [remove_state_none hrc]
    exact ⟨rfl, rfl⟩
  | some (node, rest) =>
    rw [remove_state_found hrc]
    by_cases hc : map.count - 1 < map.len / 4 ∧ map.len > MIN_SLOTS
    · rw [if_pos hc]
      exact ⟨(shrink_fields allocOk _).1, (shrink_fields allocOk _).2.1⟩
    · rw [if_neg hc]
      exact ⟨rfl, rfl⟩

/-! ### Locating a key in a well-formed table -/

theorem mem_bucket_mem_nodes (map : hashmap) {i : Nat} {n : hash_node}
    (hn : n ∈ bucket map i) : n ∈ nodes map := by
  by_cases h : i < map.table.length
  · have hb : bucket map i = map.table[i] := by
      rw [bucket, List.getD_eq_getElem?_getD, List.getElem?_eq_getElem h]
      rfl
    rw [hb] at hn
    exact List.mem_flatten.mpr ⟨map.table[i], List.getElem_mem h, hn⟩
  · rw [bucket_oob map (Nat.le_of_not_lt h)] at hn
    simp at hn

theorem keyEq_true {n : hash_node} {k : Nat} (h : n.key = k) :
    keyEq n k = true := by
  simp [keyEq, h]

theorem keyEq_false {n : hash_node} {k : Nat} (h : n.key ≠ k) :
    keyEq n k = false := by
  simp [keyEq, h]

theorem node_bucket_eq (map : hashmap) (h : WF map) {k : Nat} {n : hash_node}
    (hn : n ∈ nodes map) (hhash : n.hash = map.hash k) :
    n ∈ bucket map (map.hash k &&& (map.len - 1)) := by
  obtain ⟨chain, hchain, hmem⟩ := List.mem_flatten.mp hn
  obtain ⟨i, hi, hieq⟩ := List.getElem_of_mem hchain
  have hb : bucket map i = chain := by
    rw [bucket, List.getD_eq_getElem?_getD, List.getElem?_eq_getElem hi, hieq]
    rfl
  have hplaced := h.placed i n (by rw [hb]; exact hmem)
  rw [hhash] at hplaced
  rw [hplaced, hb]
  exact hmem

theorem get_finds (map : hashmap) (h : WF map) (hcmp : map.cmp = keyEq)
    {k : Nat} {n : hash_node} (hn : n ∈ nodes map) (hkey : n.key = k)
    (hhash : n.hash = map.hash k)
    (huniq : ∀ m ∈ nodes map, m.key = k → m = n) :
    hashmap_get map k = some n := by
  have hb := node_bucket_eq map h hn hhash
  obtain ⟨m, hm⟩ := @findChain_isSome map.cmp _ _ _ hb
    (by rw [hcmp]; exact keyEq_true hkey)
  obtain ⟨hmem, hmk⟩ := findChain_some_mem hm
  rw [hcmp] at hmk
  have hmkey : m.key = k := by
    have := hmk
    simp [keyEq] at this
    exact this
  have hmn : m = n := huniq m (mem_bucket_mem_nodes map hmem) hmkey
  rw [hashmap_get, hm, hmn]

theorem get_none_of_absent (map : hashmap) (hcmp : map.cmp = keyEq) {k : Nat}
    (habs : ∀ n ∈ nodes map, n.key ≠ k) :
    hashmap_get map k = none := by
  apply findChain_eq_none
  intro n hn
  rw [hcmp]
  exact keyEq_false (habs n (mem_bucket_mem_nodes map hn))

theorem remove_finds (allocOk : Bool) (map : hashmap) (h : WF map)
    (hcmp : map.cmp = keyEq) {k : Nat} {n : hash_node}
    (hn : n ∈ nodes map) (hkey : n.key = k) (hhash : n.hash = map.hash k)
    (huniq : ∀ m ∈ nodes map, m.key = k → m = n) :
    (hashmap_remove allocOk map k).1 = some n ∧
    (n :: nodes (hashmap_remove allocOk map k).2).Perm (nodes map) := by
  have hb := node_bucket_eq map h hn hhash
  obtain ⟨⟨m, rest⟩, hm⟩ := @removeChain_isSome map.cmp _ _ _ hb
    (by rw [hcmp]; exact keyEq_true hkey)
  obtain ⟨hmk, hmem, hperm⟩ := removeChain_some hm
  rw [hcmp] at hmk
  have hmkey : m.key = k := by
    have := hmk
    simp [keyEq] at this
    exact this
  have hmn : m = n := huniq m (mem_bucket_mem_nodes map hmem) hmkey
  subst hmn
  refine ⟨?_, remove_found_perm h hm⟩
  rw [remove_state_found hm]

theorem remove_none_of_absent (allocOk : Bool) (map : hashmap)
    (hcmp : map.cmp = keyEq) {k : Nat}
    (habs : ∀ n ∈ nodes map, n.key ≠ k) :
    hashmap_remove allocOk map k = (none, map) := by
  apply remove_state_none
  apply removeChain_eq_none
  intro n hn
  rw [hcmp]
  exact keyEq_false (habs n (mem_bucket_mem_nodes map hn))

/-! ### Initial state and insertion sequences -/

theorem init_bucket (hash : Nat → Nat) (cmp : hash_node → Nat → Bool)
    (i : Nat) : bucket (hashmap_init hash cmp) i = [] := by
  rw [bucket, hashmap_init, List.getD_eq_getElem?_getD]
  by_cases h : i < MIN_SLOTS
  · rw [List.getElem?_replicate_of_lt h]
    rfl
  · rw [List.getElem?_eq_none (by simpa using Nat.le_of_not_lt h)]
    rfl

theorem init_WF (hash : Nat → Nat) (cmp : hash_node → Nat → Bool) :
    WF (hashmap_init hash cmp) := by
  refine ⟨by simp [hashmap_init, MIN_SLOTS], ⟨4, le_refl 4, by norm_num [hashmap_init, MIN_SLOTS]⟩, ?_⟩
  intro i n hn
  rw [init_bucket] at hn
  simp at hn

theorem init_nodes (hash : Nat → Nat) (cmp : hash_node → Nat → Bool) :
    nodes (hashmap_init hash cmp) = [] := by
  rw [nodes, hashmap_init]
  simp

theorem insertSeq_WF (items : List (Bool × hash_node × Nat)) (map : hashmap)
    (h : WF map) : WF (insertSeq map items) := by
  induction items generalizing map with
  | nil => exact h
  | cons x rest ih => exact ih _ (insert_WF x.1 map x.2.1 x.2.2 h)

theorem insertSeq_hash_cmp (items : List (Bool × hash_node × Nat))
    (map : hashmap) :
    (insertSeq map items).hash = map.hash ∧
    (insertSeq map items).cmp = map.cmp := by
  induction items generalizing map with
  | nil => exact ⟨rfl, rfl⟩
  | cons x rest ih =>
    obtain ⟨h1, h2⟩ := ih (hashmap_insert x.1 map x.2.1 x.2.2).2
    obtain ⟨h3, h4⟩ := insert_hash_cmp x.1 map x.2.1 x.2.2
    exact ⟨h1.trans h3, h2.trans h4⟩

theorem insertSeq_nodes_perm (items : List (Bool × hash_node × Nat))
    (map : hashmap) (h : WF map) :
    (nodes (insertSeq map items)).Perm
      (items.map (stored map.hash) ++ nodes map) := by
  induction items generalizing map with
  | nil => simp [insertSeq]
  | cons x rest ih =>
    have hwf1 := insert_WF x.1 map x.2.1 x.2.2 h
    have hih := ih (hashmap_insert x.1 map x.2.1 x.2.2).2 hwf1
    rw [(insert_hash_cmp x.1 map x.2.1 x.2.2).1] at hih
    have hins := insert_nodes_perm x.1 map x.2.1 x.2.2 h
    have hstep : (rest.map (stored map.hash) ++
        nodes (hashmap_insert x.1 map x.2.1 x.2.2).2).Perm
        (rest.map (stored map.hash) ++ (stored map.hash x :: nodes map)) :=
      hins.append_left _
    refine (hih.trans (hstep.trans ?_))
    rw [List.map_cons, List.cons_append]
    exact List.perm_middle

/-- C1: for every sequence of `hashmap_insert` calls on a freshly
prepared table whose keys are pairwise distinct (each node holding the
key it is inserted under, and the comparison function being key
equality), `hashmap_get k` on the final table returns the link that was
inserted with `k`, whatever growths the sequence triggered: no key is
lost across resizes. -/
theorem claim_C1 (hash : Nat → Nat) (items : List (Bool × hash_node × Nat))
    (hkeys : ∀ x ∈ items, x.2.1.key = x.2.2)
    (hdist : (items.map (fun x => x.2.2)).Nodup) :
    ∀ x ∈ items,
      hashmap_get (insertSeq (hashmap_init hash keyEq) items) x.2.2 =
        some (stored hash x) := by
  intro x hx
  have hwf : WF (insertSeq (hashmap_init hash keyEq) items) :=
    insertSeq_WF items _ (init_WF hash keyEq)
  obtain ⟨hhash, hcmp⟩ := insertSeq_hash_cmp items (hashmap_init hash keyEq)
  have hhash2 : (insertSeq (hashmap_init hash keyEq) items).hash = hash := hhash
  have hcmp2 : (insertSeq (hashmap_init hash keyEq) items).cmp = keyEq := hcmp
  have hperm : (nodes (insertSeq (hashmap_init hash keyEq) items)).Perm
      (items.map (stored hash)) := by
    have hp := insertSeq_nodes_perm items _ (init_WF hash keyEq)
    rw [init_nodes] at hp
    have he : (hashmap_init hash keyEq).hash = hash := rfl
    rw [he] at hp
    simpa using hp
  have hmem : stored hash x ∈ nodes (insertSeq (hashmap_init hash keyEq) items) :=
    hperm.mem_iff.mpr (List.mem_map_of_mem _ hx)
  have hkey : (stored hash x).key = x.2.2 := hkeys x hx
  have hhash3 : (stored hash x).hash =
      (insertSeq (hashmap_init hash keyEq) items).hash x.2.2 := by
    rw [hhash2]
    rfl
  have huniq : ∀ m ∈ nodes (insertSeq (hashmap_init hash keyEq) items),
      m.key = x.2.2 → m = stored hash x := by
    intro m hm hmk
    have hm2 : m ∈ items.map (stored hash) := hperm.mem_iff.mp hm
    obtain ⟨y, hy, hye⟩ := List.mem_map.mp hm2
    rw [← hye] at hmk
    have hyk : y.2.2 = x.2.2 := (hkeys y hy).symm.trans hmk
    have hxy : y = x := List.inj_on_of_nodup_map hdist hy hx hyk
    rw [← hye, hxy]
  exact get_finds _ hwf hcmp2 hmem hkey hhash3 huniq

/-- Witness for C1 at a concrete one-element sequence. -/
theorem claim_C1_witness :
    hashmap_get (insertSeq (hashmap_init idHash keyEq)
        [(true, ⟨7, 5, 0⟩, 5)]) 5
      = some (stored idHash (true, ⟨7, 5, 0⟩, 5)) :=
  claim_C1 idHash [(true, ⟨7, 5, 0⟩, 5)] (by decide) (by decide)
    (true, ⟨7, 5, 0⟩, 5) (by decide)

theorem half_pow {len : Nat} (h : ∃ j, len = 2 ^ j) (hgt : MIN_SLOTS < len) :
    (∃ j, len / 2 = 2 ^ j) ∧ MIN_SLOTS ≤ len / 2 := by
  obtain ⟨j, hj⟩ := h
  have h4 : 4 < j := by
    by_contra hle
    have : len ≤ 2 ^ 4 := by
      rw [hj]
      exact Nat.pow_le_pow_right (by norm_num) (by omega)
    simp [MIN_SLOTS] at hgt
    omega
  obtain ⟨j2, hj2⟩ : ∃ j2, j = j2 + 1 := ⟨j - 1, by omega⟩
  have hhalf : len / 2 = 2 ^ j2 := by
    rw [hj, hj2, pow_succ, Nat.mul_div_cancel _ (by norm_num)]
  refine ⟨⟨j2, hhalf⟩, ?_⟩
  rw [hhalf]
  have : (2:Nat) ^ 4 ≤ 2 ^ j2 := Nat.pow_le_pow_right (by norm_num) (by omega)
  simpa [MIN_SLOTS] using this

/-- C3: an insert with a working allocator doubles `len` exactly when
`count > len * 3` holds after the increment; a successful grow doubles
`len`, never consults the hash function (its result is the same under
any replacement hash function), and splits each lower-half chain `i` by
bit `len` of the cached hash: bit-clear links land in bucket `i`,
bit-set links in bucket `i + len`. -/
theorem claim_C3 :
    (∀ map node key,
      (hashmap_insert true map node key).2.len =
        if map.count + 1 > map.len * 3 then map.len * 2 else map.len) ∧
    (∀ map, (hashmap_grow true map).2.len = map.len * 2) ∧
    (∀ allocOk f map,
      (hashmap_grow allocOk { map with hash := f }).2 =
        { (hashmap_grow allocOk map).2 with hash := f }) ∧
    (∀ map i, i < map.len →
      bucket (hashmap_grow true map).2 i =
        ((bucket map i).filter (fun n => !((n.hash &&& map.len) != 0))).reverse ∧
      bucket (hashmap_grow true map).2 (i + map.len) =
        ((bucket map i).filter (fun n => (n.hash &&& map.len) != 0)).reverse ∧
      (∀ n ∈ bucket map i,
        (n.hash &&& map.len = 0 → n ∈ bucket (hashmap_grow true map).2 i) ∧
        (n.hash &&& map.len ≠ 0 →
          n ∈ bucket (hashmap_grow true map).2 (i + map.len)))) := by
  refine ⟨insert_len_alloc, grow_len, ?_, ?_⟩
  · intro allocOk f map
    cases allocOk <;> rfl
  · intro map i hi
    refine ⟨grow_bucket_low map hi, grow_bucket_high map hi, ?_⟩
    intro n hn
    constructor
    · intro hbit
      rw [grow_bucket_low map hi, List.mem_reverse, List.mem_filter]
      exact ⟨hn, by simp [hbit]⟩
    · intro hbit
      rw [grow_bucket_high map hi, List.mem_reverse, List.mem_filter]
      exact ⟨hn, by simpa using hbit⟩

/-- Witness for C3 at the fresh table and bucket 0. -/
theorem claim_C3_witness :
    bucket (hashmap_grow true (hashmap_init idHash keyEq)).2 0 =
      ((bucket (hashmap_init idHash keyEq) 0).filter
        (fun n => !((n.hash &&& (hashmap_init idHash keyEq).len) != 0))).reverse ∧
    bucket (hashmap_grow true (hashmap_init idHash keyEq)).2
        (0 + (hashmap_init idHash keyEq).len) =
      ((bucket (hashmap_init idHash keyEq) 0).filter
        (fun n => (n.hash &&& (hashmap_init idHash keyEq).len) != 0)).reverse :=
  ⟨(claim_C3.2.2.2 (hashmap_init idHash keyEq) 0 (by decide)).1,
   (claim_C3.2.2.2 (hashmap_init idHash keyEq) 0 (by decide)).2.1⟩

theorem remove_ret_inv {allocOk : Bool} {map : hashmap} {key : Nat}
    {node : hash_node}
    (h : (hashmap_remove allocOk map key).1 = some node) :
    ∃ rest, removeChain map.cmp key
      (bucket map (map.hash key &&& (map.len - 1))) = some (node, rest) := by
  match hrc : removeChain map.cmp key
      (bucket map (map.hash key &&& (map.len - 1))) with
  | none =>
    rw [remove_state_none hrc] at h
    simp at h
  | some (m, rest) =>
    rw [remove_state_found hrc] at h
    have hm : m = node := by simpa using h
    exact ⟨rest, by rw [← hm]⟩

/-- C4: a shrink halves `len` and fills each bucket `i` of the halved
range with the old chain `i` followed by the old chain `i + len/2`; a
remove that unlinks a node halves `len` exactly when
`count < len / 4 && len > MIN_SLOTS` holds after the decrement; and from
a capacity-correct state `len` never drops below `MIN_SLOTS`. -/
theorem claim_C4 :
    (∀ allocOk map, (hashmap_shrink allocOk map).2.len = map.len / 2) ∧
    (∀ allocOk map, ∀ i < map.len / 2,
      bucket (hashmap_shrink allocOk map).2 i =
        bucket map i ++ bucket map (i + map.len / 2)) ∧
    (∀ allocOk map key node,
      (hashmap_remove allocOk map key).1 = some node →
      (hashmap_remove allocOk map key).2.len =
        if map.count - 1 < map.len / 4 ∧ map.len > MIN_SLOTS
        then map.len / 2 else map.len) ∧
    (∀ allocOk map key, (∃ j, map.len = 2 ^ j) → MIN_SLOTS ≤ map.len →
      MIN_SLOTS ≤ (hashmap_remove allocOk map key).2.len) := by
  refine ⟨shrink_len, ?_, ?_, ?_⟩
  · intro allocOk map i hi
    exact shrink_bucket allocOk map hi
  · intro allocOk map key node h
    obtain ⟨rest, hrc⟩ := remove_ret_inv h
    exact remove_len_found hrc
  · intro allocOk map key hpow hmin
    match hrc : removeChain map.cmp key
        (bucket map (map.hash key &&& (map.len - 1))) with
    | none =>
      rw [remove_state_none hrc]
      exact hmin
    | some (node, rest) =>
      rw [remove_len_found hrc]
      by_cases hc : map.count - 1 < map.len / 4 ∧ map.len > MIN_SLOTS
      · rw [if_pos hc]
        exact (half_pow hpow hc.2).2
      · rw [if_neg hc]
        exact hmin

/-- Witness for C4: removing the only key of a one-entry table does not
shrink below the floor. -/
theorem claim_C4_witness :
    (hashmap_remove true
        (hashmap_insert true (hashmap_init idHash keyEq) ⟨1, 5, 0⟩ 5).2 5).2.len =
      if (hashmap_insert true (hashmap_init idHash keyEq) ⟨1, 5, 0⟩ 5).2.count - 1 <
          (hashmap_insert true (hashmap_init idHash keyEq) ⟨1, 5, 0⟩ 5).2.len / 4 ∧
          (hashmap_insert true (hashmap_init idHash keyEq) ⟨1, 5, 0⟩ 5).2.len > MIN_SLOTS
      then (hashmap_insert true (hashmap_init idHash keyEq) ⟨1, 5, 0⟩ 5).2.len / 2
      else (hashmap_insert true (hashmap_init idHash keyEq) ⟨1, 5, 0⟩ 5).2.len :=
  claim_C4.2.2.1 true
    (hashmap_insert true (hashmap_init idHash keyEq) ⟨1, 5, 0⟩ 5).2 5
    ⟨1, 5, 5⟩ (by decide)

/-! ### Duplicate keys, chain order, and the effect of a grow -/

theorem insertMid_hash (map : hashmap) (node : hash_node) (key : Nat) :
    (insertMid map node key).hash = map.hash := rfl

theorem insertMid_len (map : hashmap) (node : hash_node) (key : Nat) :
    (insertMid map node key).len = map.len := rfl

theorem insertMid_cmp (map : hashmap) (node : hash_node) (key : Nat) :
    (insertMid map node key).cmp = map.cmp := rfl

theorem insertMid_bucket_self (map : hashmap) (node : hash_node) (key : Nat)
    (h : map.hash key &&& (map.len - 1) < map.table.length) :
    bucket (insertMid map node key) (map.hash key &&& (map.len - 1)) =
      { node with hash := map.hash key } ::
        bucket map (map.hash key &&& (map.len - 1)) := by
  show (map.table.set _ _).getD _ [] = _
  exact getD_set_self _ _ _ _ h

theorem findChain_cons_pos {cmp : hash_node → Nat → Bool} {key : Nat}
    {node : hash_node} {rest : List hash_node} (h : cmp node key = true) :
    findChain cmp key (node :: rest) = some node := by
  simp [findChain, h]

theorem removeChain_cons_pos {cmp : hash_node → Nat → Bool} {key : Nat}
    {node : hash_node} {rest : List hash_node} (h : cmp node key = true) :
    removeChain cmp key (node :: rest) = some (node, rest) := by
  simp [removeChain, h]

/-- A fully loaded 16-slot bucket array, written out directly: chain
`i` holds the three links with keys `i`, `i + 16` and `i + 32` (hashes
cached under `idHash`), so the table carries `48 = 16 * 3` links — the
last load before an insert triggers a grow. -/
def fullTable : List (List hash_node) :=
  (List.range 16).map (fun i =>
    [⟨i, i, i⟩, ⟨i + 16, i + 16, i + 16⟩, ⟨i + 32, i + 32, i + 32⟩])

/-- The fully loaded table state (`count = len * 3`). -/
def m48 : hashmap :=
  { table := fullTable, len := 16, count := 48, hash := idHash, cmp := keyEq }

/-- Like `fullTable` but chain 0 holds only keys 16 and 32 (47 links in
total), leaving room for one insert before the load threshold. -/
def almostFullTable : List (List hash_node) :=
  (List.range 16).map (fun i =>
    if i = 0 then [⟨16, 16, 16⟩, ⟨32, 32, 32⟩]
    else [⟨i, i, i⟩, ⟨i + 16, i + 16, i + 16⟩, ⟨i + 32, i + 32, i + 32⟩])

/-- The 47-link table state. -/
def m47 : hashmap :=
  { table := almostFullTable, len := 16, count := 47, hash := idHash, cmp := keyEq }

/-- `WF` follows from checks below `len` alone: beyond the array length
every bucket is empty. -/
theorem WF_of_bounded (map : hashmap) (h1 : map.table.length = map.len)
    (h2 : ∃ j, 4 ≤ j ∧ map.len = 2 ^ j)
    (h3 : ∀ i < map.len, ∀ n ∈ bucket map i, n.hash &&& (map.len - 1) = i) :
    WF map := by
  refine ⟨h1, h2, ?_⟩
  intro i n hn
  by_cases hi : i < map.len
  · exact h3 i hi n hn
  · rw [bucket_oob map (by rw [h1]; omega)] at hn
    simp at hn

theorem m48_WF : WF m48 :=
  WF_of_bounded m48 (by decide) ⟨4, by omega, by decide⟩ (by decide)

set_option maxRecDepth 2000 in
/-- C5 counterexample: on the 47-link table, link 100 and then link 200
are inserted under the equal key 0; the second insert triggers a grow,
and the grow reverses the chain, so `hashmap_get 0` and the first
`hashmap_remove 0` return link 100 — the FIRST-inserted of the two, not
the most recently inserted — refuting the claim for arbitrary table
states. -/
theorem claim_C5_counterexample :
    hashmap_get (hashmap_insert true
        (hashmap_insert true m47 ⟨100, 0, 0⟩ 0).2 ⟨200, 0, 0⟩ 0).2 0
      = some ⟨100, 0, 0⟩ ∧
    (hashmap_remove true (hashmap_insert true
        (hashmap_insert true m47 ⟨100, 0, 0⟩ 0).2 ⟨200, 0, 0⟩ 0).2 0).1
      = some ⟨100, 0, 0⟩ ∧
    (⟨100, 0, 0⟩ : hash_node) ≠ ⟨200, 0, 0⟩ := by
  refine ⟨by decide, by decide, by decide⟩

/-- C5 (amended): in a well-formed table using key equality that holds
no link with key `k`, inserting links `A` then `B` under `k` WITHOUT
triggering a grow (`count + 2 ≤ len * 3`) makes `hashmap_get k` return
the most recently inserted link `B`; two successive removes return `B`
then `A` — reverse insertion order — and a third remove reports
absence.  The hypothesis that no grow intervenes is forced by the
counterexample: a triggered grow reverses the chain and the walk then
meets `A` first. -/
theorem claim_C5 (map : hashmap) (h : WF map) (hcmp : map.cmp = keyEq)
    (k : Nat) (A B : hash_node) (hA : A.key = k) (hB : B.key = k)
    (habs : ∀ n ∈ nodes map, n.key ≠ k)
    (hload : map.count + 2 ≤ map.len * 3)
    (a1 a2 b1 b2 b3 : Bool) :
    hashmap_get (hashmap_insert a2 (hashmap_insert a1 map A k).2 B k).2 k
      = some { B with hash := map.hash k } ∧
    (hashmap_remove b1
        (hashmap_insert a2 (hashmap_insert a1 map A k).2 B k).2 k).1
      = some { B with hash := map.hash k } ∧
    (hashmap_remove b2 (hashmap_remove b1
        (hashmap_insert a2 (hashmap_insert a1 map A k).2 B k).2 k).2 k).1
      = some { A with hash := map.hash k } ∧
    (hashmap_remove b3 (hashmap_remove b2 (hashmap_remove b1
        (hashmap_insert a2 (hashmap_insert a1 map A k).2 B k).2 k).2 k).2 k).1
      = none := by
  obtain ⟨j, hj4, hjlen⟩ := h.len_pow
  have hslotlen : map.hash k &&& (map.len - 1) < map.len := by
    rw [hjlen]
    exact slot_lt
  have hwf1 : WF (hashmap_insert a1 map A k).2 := insert_WF a1 map A k h
  have h1hash : (hashmap_insert a1 map A k).2.hash = map.hash :=
    (insert_hash_cmp a1 map A k).1
  have h1count : (hashmap_insert a1 map A k).2.count = map.count + 1 :=
    insert_count a1 map A k
  have hm1 : (hashmap_insert a1 map A k).2 = insertMid map A k := by
    rw [insert_state, if_neg (by omega)]
  have h1len : (hashmap_insert a1 map A k).2.len = map.len := by
    rw [hm1]
    rfl
  have hwf2 : WF (hashmap_insert a2 (hashmap_insert a1 map A k).2 B k).2 :=
    insert_WF a2 _ B k hwf1
  have h2hash : (hashmap_insert a2 (hashmap_insert a1 map A k).2 B k).2.hash
      = map.hash := (insert_hash_cmp a2 _ B k).1.trans h1hash
  have h2cmp : (hashmap_insert a2 (hashmap_insert a1 map A k).2 B k).2.cmp
      = keyEq := ((insert_hash_cmp a2 _ B k).2.trans
        (insert_hash_cmp a1 map A k).2).trans hcmp
  have hm2 : (hashmap_insert a2 (hashmap_insert a1 map A k).2 B k).2
      = insertMid (insertMid map A k) B k := by
    rw [insert_state, if_neg (by rw [h1count, h1len]; omega), hm1]
  have hbucket1 : bucket (insertMid map A k) (map.hash k &&& (map.len - 1)) =
      { A with hash := map.hash k } ::
        bucket map (map.hash k &&& (map.len - 1)) :=
    insertMid_bucket_self map A k (by rw [h.table_len]; exact hslotlen)
  have hbucket2 : bucket (insertMid (insertMid map A k) B k)
      (map.hash k &&& (map.len - 1)) =
      { B with hash := map.hash k } :: ({ A with hash := map.hash k } ::
        bucket map (map.hash k &&& (map.len - 1))) := by
    have hb := insertMid_bucket_self (insertMid map A k) B k
      (by rw [insertMid_table_len, h.table_len]; exact hslotlen)
    rw [insertMid_hash, insertMid_len, hbucket1] at hb
    exact hb
  -- the two stored duplicates
  have hBkey : ({ B with hash := map.hash k } : hash_node).key = k := hB
  have hAkey : ({ A with hash := map.hash k } : hash_node).key = k := hA
  -- the chain walk of get and of the first remove meets B first
  have hget : hashmap_get
      (hashmap_insert a2 (hashmap_insert a1 map A k).2 B k).2 k
      = some { B with hash := map.hash k } := by
    rw [hm2, hashmap_get, insertMid_cmp, insertMid_cmp, hcmp,
      insertMid_hash, insertMid_hash, insertMid_len, insertMid_len, hbucket2]
    exact findChain_cons_pos (keyEq_true hBkey)
  have hrc1 : removeChain
      (insertMid (insertMid map A k) B k).cmp k
      (bucket (insertMid (insertMid map A k) B k)
        ((insertMid (insertMid map A k) B k).hash k &&&
          ((insertMid (insertMid map A k) B k).len - 1)))
      = some ({ B with hash := map.hash k }, { A with hash := map.hash k }
          :: bucket map (map.hash k &&& (map.len - 1))) := by
    rw [insertMid_cmp, insertMid_cmp, hcmp, insertMid_hash, insertMid_hash,
      insertMid_len, insertMid_len, hbucket2]
    exact removeChain_cons_pos (keyEq_true hBkey)
  have hrem1 : (hashmap_remove b1
      (hashmap_insert a2 (hashmap_insert a1 map A k).2 B k).2 k).1
      = some { B with hash := map.hash k } := by
    rw [hm2, remove_state_found hrc1]
  -- the state after the first remove holds exactly one link with key k
  have hwf3 : WF (hashmap_remove b1
      (hashmap_insert a2 (hashmap_insert a1 map A k).2 B k).2 k).2 :=
    remove_WF b1 _ k hwf2
  have h3cmp : (hashmap_remove b1
      (hashmap_insert a2 (hashmap_insert a1 map A k).2 B k).2 k).2.cmp
      = keyEq := (remove_hash_cmp b1 _ k).2.trans h2cmp
  have h3hash : (hashmap_remove b1
      (hashmap_insert a2 (hashmap_insert a1 map A k).2 B k).2 k).2.hash
      = map.hash := (remove_hash_cmp b1 _ k).1.trans h2hash
  have hperm2 : (nodes (hashmap_insert a2 (hashmap_insert a1 map A k).2 B k).2).Perm
      ({ B with hash := map.hash k } :: ({ A with hash := map.hash k } :: nodes map)) := by
    have hp2 := insert_nodes_perm a2 (hashmap_insert a1 map A k).2 B k hwf1
    rw [h1hash] at hp2
    exact hp2.trans ((insert_nodes_perm a1 map A k h).cons _)
  have hperm3 : (nodes (hashmap_remove b1
      (hashmap_insert a2 (hashmap_insert a1 map A k).2 B k).2 k).2).Perm
      ({ A with hash := map.hash k } :: nodes map) := by
    have hp3 : ({ B with hash := map.hash k } :: nodes (hashmap_remove b1
        (hashmap_insert a2 (hashmap_insert a1 map A k).2 B k).2 k).2).Perm
        (nodes (hashmap_insert a2 (hashmap_insert a1 map A k).2 B k).2) := by
      exact @remove_found_perm b1 _ _ _ _ hwf2 (by rw [hm2]; exact hrc1)
    exact (hp3.trans hperm2).cons_inv
  have hAmem : ({ A with hash := map.hash k } : hash_node) ∈
      nodes (hashmap_remove b1
        (hashmap_insert a2 (hashmap_insert a1 map A k).2 B k).2 k).2 :=
    hperm3.mem_iff.mpr (List.mem_cons_self _ _)
  have huniq3 : ∀ m ∈ nodes (hashmap_remove b1
      (hashmap_insert a2 (hashmap_insert a1 map A k).2 B k).2 k).2,
      m.key = k → m = { A with hash := map.hash k } := by
    intro m hm hmk
    rcases List.mem_cons.mp (hperm3.mem_iff.mp hm) with hc | hc
    · exact hc
    · exact absurd hmk (habs m hc)
  have hr2 := remove_finds b2 _ hwf3 h3cmp hAmem hAkey
    (by rw [h3hash]) huniq3
  -- after the second remove no link with key k remains
  have hperm4 : (nodes (hashmap_remove b2 (hashmap_remove b1
      (hashmap_insert a2 (hashmap_insert a1 map A k).2 B k).2 k).2 k).2).Perm
      (nodes map) := (hr2.2.trans hperm3).cons_inv
  have habs4 : ∀ n ∈ nodes (hashmap_remove b2 (hashmap_remove b1
      (hashmap_insert a2 (hashmap_insert a1 map A k).2 B k).2 k).2 k).2,
      n.key ≠ k := fun n hn => habs n (hperm4.mem_iff.mp hn)
  have h4cmp : (hashmap_remove b2 (hashmap_remove b1
      (hashmap_insert a2 (hashmap_insert a1 map A k).2 B k).2 k).2 k).2.cmp
      = keyEq := (remove_hash_cmp b2 _ k).2.trans h3cmp
  refine ⟨hget, hrem1, hr2.1, ?_⟩
  rw [remove_none_of_absent b3 _ h4cmp habs4]

/-- Witness for C5: two links with equal key 3 on the fresh table. -/
theorem claim_C5_witness :
    hashmap_get (hashmap_insert true (hashmap_insert true
        (hashmap_init idHash keyEq) ⟨1, 3, 0⟩ 3).2 ⟨2, 3, 0⟩ 3).2 3
      = some ⟨2, 3, 3⟩ ∧
    (hashmap_remove true (hashmap_insert true (hashmap_insert true
        (hashmap_init idHash keyEq) ⟨1, 3, 0⟩ 3).2 ⟨2, 3, 0⟩ 3).2 3).1
      = some ⟨2, 3, 3⟩ ∧
    (hashmap_remove true (hashmap_remove true (hashmap_insert true
        (hashmap_insert true (hashmap_init idHash keyEq) ⟨1, 3, 0⟩ 3).2
        ⟨2, 3, 0⟩ 3).2 3).2 3).1
      = some ⟨1, 3, 3⟩ ∧
    (hashmap_remove true (hashmap_remove true (hashmap_remove true
        (hashmap_insert true (hashmap_insert true
          (hashmap_init idHash keyEq) ⟨1, 3, 0⟩ 3).2 ⟨2, 3, 0⟩ 3).2
        3).2 3).2 3).1
      = none :=
  claim_C5 (hashmap_init idHash keyEq) (init_WF idHash keyEq) rfl 3
    ⟨1, 3, 0⟩ ⟨2, 3, 0⟩ rfl rfl
    (by intro n hn; rw [init_nodes] at hn; simp at hn) (by decide)
    true true true true true

/-! ### Reporting of allocation failures -/

set_option maxRecDepth 2000 in
/-- C6 counterexample: on the fully loaded 48-link table, an insert whose
triggered grow fails its reallocation still returns 0 (success) to its
caller — the count shows the grow was triggered (49 > 16 * 3) and the
unchanged `len` shows it failed, yet no error reaches the caller. -/
theorem claim_C6_counterexample :
    (hashmap_insert false m48 ⟨48, 48, 0⟩ 48).1 = 0 ∧
    (hashmap_insert false m48 ⟨48, 48, 0⟩ 48).2.count = MIN_SLOTS * 3 + 1 ∧
    (hashmap_insert false m48 ⟨48, 48, 0⟩ 48).2.len = MIN_SLOTS := by
  refine ⟨by decide, by decide, by decide⟩

/-- C6 (amended): reallocation failure is detected only internally —
`hashmap_grow` and `hashmap_shrink` return -1 — but the public
operations never forward it: `hashmap_insert` returns 0 whatever the
allocation outcome, and the result of `hashmap_remove` does not depend
on the allocation outcome.  (`hashmap_init` returns void in the C
source and does not check `calloc`, so it reports nothing either.) -/
theorem claim_C6 :
    (∀ allocOk map node key, (hashmap_insert allocOk map node key).1 = 0) ∧
    (∀ map : hashmap, (hashmap_grow false map).1 = -1) ∧
    (∀ map : hashmap, (hashmap_shrink false map).1 = -1) ∧
    (∀ a b map key,
      (hashmap_remove a map key).1 = (hashmap_remove b map key).1) := by
  refine ⟨insert_code, fun map => rfl, shrink_fail_code, ?_⟩
  intro a b map key
  match hrc : removeChain map.cmp key
      (bucket map (map.hash key &&& (map.len - 1))) with
  | none =>
    rw [@remove_state_none a map key hrc, @remove_state_none b map key hrc]
  | some (node, rest) =>
    rw [@remove_state_found a map key node rest hrc,
      @remove_state_found b map key node rest hrc]

/-- C7: a failed reallocation inside a triggered grow leaves the grow
without any effect (`hashmap_grow false` returns the map untouched);
the insert that triggered it keeps `len`, has linked the new node at
the head of its chain, has incremented `count`, and the inserted link
is immediately findable. -/
theorem claim_C7 :
    (∀ map : hashmap, hashmap_grow false map = (-1, map)) ∧
    (∀ map node key, WF map → map.cmp = keyEq → node.key = key →
      map.count + 1 > map.len * 3 →
      (hashmap_insert false map node key).2.len = map.len ∧
      (hashmap_insert false map node key).2.count = map.count + 1 ∧
      (hashmap_insert false map node key).2.table =
        map.table.set (map.hash key &&& (map.len - 1))
          ({ node with hash := map.hash key } ::
            bucket map (map.hash key &&& (map.len - 1))) ∧
      hashmap_get (hashmap_insert false map node key).2 key =
        some { node with hash := map.hash key }) := by
  refine ⟨fun map => rfl, ?_⟩
  intro map node key h hcmp hkey htrig
  obtain ⟨j, hj4, hjlen⟩ := h.len_pow
  have hslotlen : map.hash key &&& (map.len - 1) < map.len := by
    rw [hjlen]
    exact slot_lt
  have hm1 : (hashmap_insert false map node key).2 = insertMid map node key := by
    rw [insert_state, if_pos htrig, grow_fail]
  have hbucket := insertMid_bucket_self map node key
    (by rw [h.table_len]; exact hslotlen)
  refine ⟨by rw [hm1]; rfl, by rw [hm1]; rfl, by rw [hm1]; rfl, ?_⟩
  rw [hm1, hashmap_get, insertMid_cmp, hcmp, insertMid_hash, insertMid_len,
    hbucket]
  exact findChain_cons_pos (keyEq_true (show ({ node with hash := map.hash key } : hash_node).key = key from hkey))

/-- Witness for C7 on the fully loaded 48-link table. -/
theorem claim_C7_witness :
    (hashmap_insert false m48 ⟨100, 48, 0⟩ 48).2.len = m48.len ∧
    (hashmap_insert false m48 ⟨100, 48, 0⟩ 48).2.count = m48.count + 1 ∧
    (hashmap_insert false m48 ⟨100, 48, 0⟩ 48).2.table =
      m48.table.set (m48.hash 48 &&& (m48.len - 1))
        ({ id := 100, key := 48, hash := m48.hash 48 } ::
          bucket m48 (m48.hash 48 &&& (m48.len - 1))) ∧
    hashmap_get (hashmap_insert false m48 ⟨100, 48, 0⟩ 48).2 48 =
      some ⟨100, 48, 48⟩ :=
  claim_C7.2 m48 ⟨100, 48, 0⟩ 48 m48_WF rfl rfl (by decide)

/-- C8: `count` tracks the stored links exactly: insert adds one link
(the node with its hash cached) and bumps `count`; a successful remove
takes away exactly the returned link and decrements `count`; a remove
that finds nothing changes nothing; grow and shrink permute the stored
links without touching `count`; hence `count = number of stored links`
is preserved by every operation. -/
theorem claim_C8 :
    (∀ allocOk map node key, WF map →
      (hashmap_insert allocOk map node key).2.count = map.count + 1 ∧
      (nodes (hashmap_insert allocOk map node key).2).Perm
        ({ node with hash := map.hash key } :: nodes map)) ∧
    (∀ allocOk map key node, WF map →
      (hashmap_remove allocOk map key).1 = some node →
      (hashmap_remove allocOk map key).2.count = map.count - 1 ∧
      (node :: nodes (hashmap_remove allocOk map key).2).Perm (nodes map)) ∧
    (∀ allocOk map key, (hashmap_remove allocOk map key).1 = none →
      (hashmap_remove allocOk map key).2 = map) ∧
    (∀ allocOk map, map.table.length = map.len →
      (nodes (hashmap_grow allocOk map).2).Perm (nodes map) ∧
      (hashmap_grow allocOk map).2.count = map.count) ∧
    (∀ allocOk map, map.table.length = map.len → map.len = 2 * (map.len / 2) →
      (nodes (hashmap_shrink allocOk map).2).Perm (nodes map) ∧
      (hashmap_shrink allocOk map).2.count = map.count) ∧
    (∀ op map, WF map → map.count = (nodes map).length →
      (applyOp op map).count = (nodes (applyOp op map)).length) := by
  refine ⟨?_, ?_, ?_, ?_, ?_, ?_⟩
  · intro allocOk map node key h
    exact ⟨insert_count allocOk map node key,
      insert_nodes_perm allocOk map node key h⟩
  · intro allocOk map key node h hret
    obtain ⟨rest, hrc⟩ := remove_ret_inv hret
    exact ⟨remove_count_found hrc, remove_found_perm h hrc⟩
  · intro allocOk map key hret
    match hrc : removeChain map.cmp key
        (bucket map (map.hash key &&& (map.len - 1))) with
    | none =>
      rw [remove_state_none hrc]
    | some (node, rest) =>
      rw [@remove_state_found allocOk map key node rest hrc] at hret
      simp at hret
  · intro allocOk map hlen
    exact ⟨grow_nodes_perm map allocOk hlen, (grow_fields allocOk map).2.2⟩
  · intro allocOk map hlen heven
    exact ⟨shrink_nodes_perm allocOk map hlen heven,
      (shrink_fields allocOk map).2.2⟩
  · intro op map h hcount
    match op with
    | .ins a node key =>
      simp only [applyOp]
      rw [insert_count,
        (insert_nodes_perm a map node key h).length_eq, List.length_cons,
        hcount]
    | .rem a key =>
      simp only [applyOp]
      match hrc : removeChain map.cmp key
          (bucket map (map.hash key &&& (map.len - 1))) with
      | none =>
        rw [remove_state_none hrc, hcount]
      | some (node, rest) =>
        have hp := @remove_found_perm a map key node rest h hrc
        have hlen := hp.length_eq
        rw [List.length_cons] at hlen
        rw [remove_count_found hrc, hcount, ← hlen]
        omega

/-- Witness for C8: one insert step on the fresh table keeps the count
equal to the number of stored links. -/
theorem claim_C8_witness :
    (applyOp (Op.ins true ⟨0, 1, 0⟩ 1) (hashmap_init idHash keyEq)).count =
      (nodes (applyOp (Op.ins true ⟨0, 1, 0⟩ 1)
        (hashmap_init idHash keyEq))).length :=
  claim_C8.2.2.2.2.2 (Op.ins true ⟨0, 1, 0⟩ 1) (hashmap_init idHash keyEq)
    (init_WF idHash keyEq) (by rw [init_nodes]; rfl)

/-! ### Round trip insert then remove, and removes of absent keys -/

set_option maxRecDepth 2000 in
/-- C9 counterexample: on the fully loaded 48-link table, inserting a fresh key
triggers a grow, and removing that key right away does not undo it: the
round trip returns the inserted link and restores `count`, but leaves
`len` doubled (32 instead of 16), so the observable state is changed. -/
theorem claim_C9_counterexample :
    (hashmap_remove true
        (hashmap_insert true m48 ⟨100, 48, 0⟩ 48).2 48).1
      = some ⟨100, 48, 48⟩ ∧
    (hashmap_remove true
        (hashmap_insert true m48 ⟨100, 48, 0⟩ 48).2 48).2.len = 32 ∧
    m48.len = MIN_SLOTS := by
  refine ⟨by decide, by decide, by decide⟩

/-- C9 (amended): provided the insert does not trigger a grow
(`count + 1 ≤ len * 3`) and the starting state is not already
shrink-eligible (`¬(count < len / 4 ∧ len > MIN_SLOTS)`), inserting a
node under `k` and immediately removing `k` hands back exactly the
inserted link and restores the table completely — bucket array, `len`
and `count` included.  When the insert does trigger a grow, the round
trip leaves `len` doubled: see the counterexample. -/
theorem claim_C9 (map : hashmap) (node : hash_node) (k : Nat)
    (h : WF map) (hcmp : map.cmp = keyEq) (hkey : node.key = k)
    (hnogrow : map.count + 1 ≤ map.len * 3)
    (hnoshrink : ¬(map.count < map.len / 4 ∧ map.len > MIN_SLOTS))
    (a1 a2 : Bool) :
    hashmap_remove a2 (hashmap_insert a1 map node k).2 k =
      (some { node with hash := map.hash k }, map) := by
  obtain ⟨j, hj4, hjlen⟩ := h.len_pow
  have hslotlen : map.hash k &&& (map.len - 1) < map.len := by
    rw [hjlen]
    exact slot_lt
  have hm1 : (hashmap_insert a1 map node k).2 = insertMid map node k := by
    rw [insert_state, if_neg (by omega)]
  rw [hm1]
  have hbucket := insertMid_bucket_self map node k
    (by rw [h.table_len]; exact hslotlen)
  have hrc : removeChain (insertMid map node k).cmp k
      (bucket (insertMid map node k)
        ((insertMid map node k).hash k &&& ((insertMid map node k).len - 1)))
      = some ({ node with hash := map.hash k },
          bucket map (map.hash k &&& (map.len - 1))) := by
    rw [insertMid_cmp, hcmp, insertMid_hash, insertMid_len, hbucket]
    exact removeChain_cons_pos
      (keyEq_true (show ({ node with hash := map.hash k } : hash_node).key = k from hkey))
  rw [remove_state_found hrc]
  have hcond : ¬((insertMid map node k).count - 1 < (insertMid map node k).len / 4 ∧
      (insertMid map node k).len > MIN_SLOTS) := by
    show ¬(map.count + 1 - 1 < map.len / 4 ∧ map.len > MIN_SLOTS)
    simpa using hnoshrink
  rw [if_neg hcond]
  have hstate : removeMid (insertMid map node k) k
      (bucket map (map.hash k &&& (map.len - 1))) = map := by
    apply hashmap.ext
    · show ((map.table.set (map.hash k &&& (map.len - 1)) _).set
        ((insertMid map node k).hash k &&& ((insertMid map node k).len - 1))
        (bucket map (map.hash k &&& (map.len - 1)))) = map.table
      rw [insertMid_hash, insertMid_len, List.set_set]
      exact set_getD_self map.table _ []
    · rfl
    · show map.count + 1 - 1 = map.count
      omega
    · rfl
    · rfl
  rw [hstate]

/-- Witness for C9 on the fresh table with key 4. -/
theorem claim_C9_witness :
    hashmap_remove true
        (hashmap_insert true (hashmap_init idHash keyEq) ⟨9, 4, 0⟩ 4).2 4
      = (some ⟨9, 4, 4⟩, hashmap_init idHash keyEq) :=
  claim_C9 (hashmap_init idHash keyEq) ⟨9, 4, 0⟩ 4 (init_WF idHash keyEq)
    rfl rfl (by decide) (by decide) true true

theorem findChain_none_forall {cmp : hash_node → Nat → Bool} {key : Nat}
    {chain : List hash_node} (h : findChain cmp key chain = none) :
    ∀ n ∈ chain, cmp n key = false := by
  induction chain with
  | nil => intro n hn; simp at hn
  | cons c t ih =>
    by_cases hc : cmp c key
    · rw [findChain_cons_pos hc] at h
      simp at h
    · intro n hn
      rcases List.mem_cons.mp hn with hn | hn
      · subst hn
        simpa using hc
      · have ht : findChain cmp key t = none := by
          simp only [findChain, if_neg hc] at h
          exact h
        exact ih ht n hn

/-- C10: a `hashmap_remove` on a key whose chain holds no match (as
witnessed by `hashmap_get` returning absent) returns the absent result
and leaves the whole table untouched — `count`, `len`, the bucket array
and every chain — and in particular triggers no shrink whatever the
load is. -/
theorem claim_C10 (allocOk : Bool) (map : hashmap) (k : Nat)
    (h : hashmap_get map k = none) :
    hashmap_remove allocOk map k = (none, map) := by
  apply remove_state_none
  exact removeChain_eq_none (findChain_none_forall h)

/-- Witness for C10: removing from the fresh table. -/
theorem claim_C10_witness :
    hashmap_remove true (hashmap_init idHash keyEq) 5 =
      (none, hashmap_init idHash keyEq) :=
  claim_C10 true (hashmap_init idHash keyEq) 5 (by decide)
